import Mathlib

/-
Shallow embedding of the bounded-concurrency task executor in
src/pyco/concurrent.py (class ConcurrentExecutor and the helper
coroutine safe_run), together with a small-step interleaving model of
the throttled concurrent strategy.

Modelling conventions:
  - A coroutine is abstracted by its terminal behaviour: it either
    returns a Python value or raises an exception.  Python values are
    None, integers, or Exception instances (an Exception can be an
    ordinary return VALUE, which the sequential strategy inspects with
    isinstance(result, Exception)).  Exceptions are identified by a
    natural number.
  - asyncio futures are modelled by their resolution state: unresolved,
    resolved with a value (set_result), or resolved with an exception
    (set_exception).
  - The scheduler is single-threaded and cooperative (spec section 5);
    during one run cycle nothing flips the running flag, so the
    running guard at the top of _run_coro is True throughout a cycle
    and the sequential model inlines it as such.
  - The Observer collaborator (pyco/observer.py) is not part of the
    source tree; its registry is modelled from the spec.
-/

namespace Paco

/-- Python values a task can produce: None, an integer, or an Exception
instance identified by a numeric code. -/
inductive PyVal where
  | vnone : PyVal
  | int (n : Int) : PyVal
  | exc (e : Nat) : PyVal
deriving DecidableEq, Repr

/-- Tests isinstance(result, Exception) on a value. -/
def PyVal.isExc : PyVal → Bool
  | .exc _ => true
  | _ => false

/-- Exception code carried by an Exception value (0 otherwise). -/
def PyVal.excId : PyVal → Nat
  | .exc e => e
  | _ => 0

/-- A coroutine abstracted by its terminal behaviour: it either returns
a value or raises an exception with a numeric code. -/
inductive Coro where
  | ret (v : PyVal) : Coro
  | raise (e : Nat) : Coro
deriving DecidableEq, Repr

/-- Embedding of safe_run (src/pyco/concurrent.py lines 26-35): awaits
the coroutine; on an exception, returns the error as the result when
return_exceptions is true, otherwise re-raises it. -/
def safe_run (coro : Coro) (return_exceptions : Bool) : Except Nat PyVal :=
  match coro with
  | .ret v => .ok v
  | .raise e => if return_exceptions then .ok (.exc e) else .error e

/-- Task record (the namedtuple Task at line 23): an immutable pairing
of the submission index and the coroutine object. -/
structure Task where
  index : Nat
  coro : Coro
deriving DecidableEq, Repr

/-- Argument shapes accepted by ConcurrentExecutor.add: a coroutine
function (which add invokes with the given arguments to materialize a
coroutine object), an already-made coroutine object, or anything else
(which add rejects). -/
inductive WorkItem where
  | coroFn (f : Coro) : WorkItem
  | coroObj (c : Coro) : WorkItem
  | invalid : WorkItem
deriving DecidableEq, Repr

/-- Modelled from the spec: the Observer pub/sub collaborator
(pyco/observer.py is not part of the source tree).  Spec sections 4.6
and 9 describe it as an owned registry mapping event names to ordered
lists of handlers, scoped to the executor instance; handlers are
abstracted by numeric identifiers. -/
structure Observer where
  handlers : List (String × Nat)
deriving DecidableEq, Repr

/-- Modelled from the spec: on(event, handler) registers a handler for
the event, in registration order. -/
def Observer.on (o : Observer) (event : String) (fn : Nat) : Observer :=
  ⟨o.handlers ++ [(event, fn)]⟩

/-- Modelled from the spec: off(event) removes the handlers registered
for that event. -/
def Observer.off (o : Observer) (event : String) : Observer :=
  ⟨o.handlers.filter (fun p => p.1 != event)⟩

/-- Modelled from the spec: clear() empties the whole registry (used by
ConcurrentExecutor.reset to clear all notification subscriptions). -/
def Observer.clear (_ : Observer) : Observer :=
  ⟨[]⟩

/-- Errors surfaced by the executor.  The Python code raises TypeError,
ValueError and RuntimeError; the spec names them InvalidTaskError,
EmptyScheduleError, AlreadyRunningError and StillRunningError.
taskExc carries a task exception propagated out of the sequential
strategy when return_exceptions is false. -/
inductive ExecError where
  | invalidTask : ExecError
  | emptySchedule : ExecError
  | alreadyRunning : ExecError
  | stillRunning : ExecError
  | taskExc (e : Nat) : ExecError
deriving DecidableEq, Repr

/-- State of a ConcurrentExecutor instance (fields set in __init__,
lines 78-100).  The throttler field records the number of free
semaphore slots at rest. -/
structure ConcurrentExecutor where
  running : Bool
  return_exceptions : Bool
  limit : Nat
  pool : List Task
  observer : Observer
  throttler : Nat
deriving DecidableEq, Repr

/-- Embedding of ConcurrentExecutor.__init__ (lines 78-96) without
initial coroutines: running and return_exceptions start false, the
stored limit is max(int(limit), 0), the pool is empty, and the
semaphore is created with the stored limit free slots. -/
def newExecutor (limit : Int) : ConcurrentExecutor :=
  let l : Nat := (max limit 0).toNat
  { running := false
    return_exceptions := false
    limit := l
    pool := []
    observer := ⟨[]⟩
    throttler := l }

/-- Embedding of ConcurrentExecutor.reset (lines 102-114): raises while
running; otherwise clears the pool, clears the observer registry, and
recreates the semaphore with limit free slots. -/
def ConcurrentExecutor.reset (s : ConcurrentExecutor) :
    Except ExecError ConcurrentExecutor :=
  if s.running then .error .stillRunning
  else .ok { s with pool := [], observer := s.observer.clear, throttler := s.limit }

/-- Embedding of ConcurrentExecutor.cancel (lines 116-122): clears the
pool and forces running to false. -/
def ConcurrentExecutor.cancel (s : ConcurrentExecutor) : ConcurrentExecutor :=
  { s with pool := [], running := false }

/-- Embedding of ConcurrentExecutor.is_running (lines 330-337). -/
def ConcurrentExecutor.is_running (s : ConcurrentExecutor) : Bool :=
  s.running

/-- Embedding of ConcurrentExecutor.add (lines 153-182): materializes a
coroutine function into a coroutine object, rejects non-coroutines with
a TypeError, then appends Task(max(len(pool), 0), coro) to the pool and
returns the coroutine object.  submit is an alias of add. -/
def ConcurrentExecutor.add (s : ConcurrentExecutor) (w : WorkItem) :
    Except ExecError (ConcurrentExecutor × Coro) :=
  match w with
  | .invalid => .error .invalidTask
  | .coroFn f =>
      let index := max s.pool.length 0
      .ok ({ s with pool := s.pool ++ [⟨index, f⟩] }, f)
  | .coroObj c =>
      let index := max s.pool.length 0
      .ok ({ s with pool := s.pool ++ [⟨index, c⟩] }, c)

/-- Embedding of ConcurrentExecutor.extend (lines 143-151): applies add
to each item in order, stopping at the first rejection. -/
def ConcurrentExecutor.extend (s : ConcurrentExecutor) :
    List WorkItem → Except ExecError ConcurrentExecutor
  | [] => .ok s
  | w :: ws =>
      match s.add w with
      | .error e => .error e
      | .ok (s', _) => s'.extend ws

/-- Lifecycle and per-task events emitted through the observer. -/
inductive Event where
  | start : Event
  | finish : Event
  | taskStart (index : Nat) : Event
  | taskFinish (index : Nat) (result : PyVal) : Event
deriving DecidableEq, Repr

/-- Resolution state of an asyncio future. -/
inductive Fut where
  | unresolved : Fut
  | res (v : PyVal) : Fut
  | excF (e : Nat) : Fut
deriving DecidableEq, Repr

/-- Snapshot of the sequential strategy at the moment a task exception
propagates out of _run_sequentially: the exception code, the events
emitted so far, the local done and pending future lists at that moment
(both are discarded when the exception unwinds), and the tasks still
left in the executor pool. -/
structure SeqAbort where
  exc : Nat
  trace : List Event
  done : List Fut
  pending : List Fut
  pool : List Task
deriving DecidableEq, Repr

/-- Embedding of ConcurrentExecutor._run_sequentially (lines 187-213)
with _run_coro (lines 235-255) inlined, accumulating the event trace.
Per iteration: an unresolved future is appended to pending, the task is
popped, task.start is emitted, safe_run executes the coroutine (a raise
propagates immediately, before any task.finish event), task.finish is
emitted, then the result is bound: an Exception value is re-raised when
return_exceptions is false, otherwise stored with set_exception; other
values are stored with set_result; the future then moves from pending
to done. -/
def runSeqAux (re : Bool) :
    List Task → List Event → List Fut →
      Except SeqAbort (List Event × List Fut × List Fut)
  | [], trace, done => .ok (trace, done, [])
  | t :: rest, trace, done =>
      let trace1 := trace ++ [Event.taskStart t.index]
      match safe_run t.coro re with
      | .error e => .error ⟨e, trace1, done, [Fut.unresolved], rest⟩
      | .ok v =>
          let trace2 := trace1 ++ [Event.taskFinish t.index v]
          if v.isExc then
            if re then runSeqAux re rest trace2 (done ++ [Fut.excF v.excId])
            else .error ⟨v.excId, trace2, done, [Fut.unresolved], rest⟩
          else runSeqAux re rest trace2 (done ++ [Fut.res v])

/-- Resolution of the asyncio future wrapping one task under the
concurrent strategy (_run_concurrently, lines 215-233): the future
holds the value returned by _run_coro, or the exception safe_run let
propagate.  Unlike the sequential strategy, a returned Exception value
stays an ordinary result value here. -/
def concurrentFut (re : Bool) (t : Task) : Fut :=
  match safe_run t.coro re with
  | .error e => Fut.excF e
  | .ok v => Fut.res v

/-- Embedding of ConcurrentExecutor.run (lines 269-325) without a
timeout and with the default ALL_COMPLETED policy, returning the
executor state after the call together with the outcome.  The guards
come first (already running, then empty pool) and leave the state
untouched.  Then running is set, return_exceptions is overwritten when
an argument is given, and the strategy is dispatched on the limit.  A
sequential task exception propagates before running is cleared and
before the implicit reset, leaving the executor running with the
undrained pool.  On normal completion the pool is drained, running is
cleared, and the implicit reset clears the observer registry and
recreates the semaphore. -/
def ConcurrentExecutor.run (s : ConcurrentExecutor) (re? : Option Bool) :
    ConcurrentExecutor × Except ExecError (List Fut × List Fut) :=
  if s.running then (s, .error .alreadyRunning)
  else if s.pool.length = 0 then (s, .error .emptySchedule)
  else
    let s1 : ConcurrentExecutor := { s with running := true }
    let s2 : ConcurrentExecutor :=
      match re? with
      | some b => { s1 with return_exceptions := b }
      | none => s1
    if s2.limit = 1 then
      match runSeqAux s2.return_exceptions s2.pool [] [] with
      | .error ab => ({ s2 with pool := ab.pool }, .error (.taskExc ab.exc))
      | .ok (_, done, pending) =>
          let s3 : ConcurrentExecutor := { s2 with pool := [], running := false }
          let s4 : ConcurrentExecutor :=
            { s3 with pool := [], observer := s3.observer.clear, throttler := s3.limit }
          (s4, .ok (done, pending))
    else
      let done := s2.pool.map (concurrentFut s2.return_exceptions)
      let s3 : ConcurrentExecutor := { s2 with pool := [], running := false }
      let s4 : ConcurrentExecutor :=
        { s3 with observer := s3.observer.clear, throttler := s3.limit }
      (s4, .ok (done, []))

/-
Small-step interleaving model of the throttled concurrent strategy
(_run_concurrently, lines 215-233, with _schedule_coro, lines 257-267).
run drains the whole pool up front and submits one wrapped coroutine
per task to asyncio.wait; the cooperative scheduler then interleaves
them.  Each wrapped coroutine passes through three phases:

  waiting  - scheduled, has not yet acquired a semaphore slot;
  running  - holds a slot (when limit is positive) and has emitted its
             task.start event; it has not yet emitted task.finish;
  done f   - has emitted task.finish and released its slot; its future
             resolved to f.

A waiting task may start only if the limit is 0 (the unthrottled
_run_coro path taken when limit <= 0) or strictly fewer than limit
tasks are currently in flight (a free semaphore slot exists, the
_schedule_coro path).  A running task may finish at any step; its
future resolves exactly as safe_run dictates.
-/

/-- Phase of one wrapped coroutine under the concurrent strategy. -/
inductive Phase where
  | waiting : Phase
  | running : Phase
  | done (f : Fut) : Phase
deriving DecidableEq, Repr

/-- Tests whether a phase is the in-flight (started, not finished)
phase. -/
def Phase.isRunning : Phase → Bool
  | .running => true
  | _ => false

/-- Number of in-flight tasks: those that have emitted task.start but
not yet task.finish. -/
def inFlight : List Phase → Nat
  | [] => 0
  | p :: ps => (if p.isRunning then 1 else 0) + inFlight ps

/-- Static configuration of one concurrent cycle: the stored limit, the
return_exceptions flag in force, and the drained task list (position i
holds the task submitted with index i). -/
structure CCfg where
  limit : Nat
  re : Bool
  tasks : List Task
deriving DecidableEq, Repr

/-- One cooperative scheduling step of the concurrent strategy. -/
inductive CStep (cfg : CCfg) : List Phase → List Phase → Prop
  | start (ps : List Phase) (i : Nat) :
      ps[i]? = some Phase.waiting →
      (cfg.limit = 0 ∨ inFlight ps < cfg.limit) →
      CStep cfg ps (ps.set i Phase.running)
  | finish (ps : List Phase) (i : Nat) (t : Task) :
      ps[i]? = some Phase.running →
      cfg.tasks[i]? = some t →
      CStep cfg ps (ps.set i (Phase.done (concurrentFut cfg.re t)))

/-- Initial phases of a cycle: every wrapped coroutine is scheduled and
waiting. -/
def initPhases (cfg : CCfg) : List Phase :=
  cfg.tasks.map (fun _ => Phase.waiting)

/-- Phase vectors reachable from the start of a concurrent cycle. -/
inductive Reach (cfg : CCfg) : List Phase → Prop
  | init : Reach cfg (initPhases cfg)
  | step {ps ps' : List Phase} : Reach cfg ps → CStep cfg ps ps' → Reach cfg ps'

lemma isRunning_iff (p : Phase) : p.isRunning = true ↔ p = Phase.running := by
  cases p <;> simp [Phase.isRunning]

lemma inFlight_set (ps : List Phase) (i : Nat) (q p : Phase)
    (h : ps[i]? = some q) :
    inFlight (ps.set i p) + (if q.isRunning then 1 else 0)
      = inFlight ps + (if p.isRunning then 1 else 0) := by
  induction ps generalizing i with
  | nil => simp at h
  | cons a as ih =>
      cases i with
      | zero =>
          simp at h
          subst h
          simp [inFlight]
          omega
      | succ n =>
          simp at h
          have := ih n h
          simp [inFlight]
          omega

lemma inFlight_initPhases (cfg : CCfg) : inFlight (initPhases cfg) = 0 := by
  unfold initPhases
  induction cfg.tasks with
  | nil => simp [inFlight]
  | cons a as ih => simpa [inFlight, Phase.isRunning] using ih

lemma exists_running_of_inFlight_pos (ps : List Phase)
    (h : 0 < inFlight ps) : ∃ i : Nat, ps[i]? = some Phase.running := by
  induction ps with
  | nil => simp [inFlight] at h
  | cons a as ih =>
      by_cases ha : a.isRunning
      · exact ⟨0, by simp [(isRunning_iff a).mp ha]⟩
      · have h' : 0 < inFlight as := by
          simp [inFlight, ha] at h
          simpa using h
        obtain ⟨i, hi⟩ := ih h'
        exact ⟨i + 1, by simpa using hi⟩

lemma reach_length (cfg : CCfg) {ps : List Phase} (h : Reach cfg ps) :
    ps.length = cfg.tasks.length := by
  induction h with
  | init => simp [initPhases]
  | step _ hs ih =>
      cases hs with
      | start i hw hg => simpa [List.length_set] using ih
      | finish i t hr ht => simpa [List.length_set] using ih

/-- Throttle invariant: along every reachable interleaving of a cycle
with a positive limit, the number of in-flight tasks never exceeds the
limit. -/
lemma reach_inFlight_le (cfg : CCfg) (hl : 1 ≤ cfg.limit)
    {ps : List Phase} (h : Reach cfg ps) : inFlight ps ≤ cfg.limit := by
  induction h with
  | init => simp [inFlight_initPhases]
  | step _ hs ih =>
      cases hs with
      | start i hw hg =>
          have hcount := inFlight_set _ i Phase.waiting Phase.running hw
          simp [Phase.isRunning] at hcount
          rcases hg with h0 | hlt
          · omega
          · omega
      | finish i t hr ht =>
          have hcount := inFlight_set _ i Phase.running (Phase.done (concurrentFut cfg.re t)) hr
          simp [Phase.isRunning] at hcount
          omega

/-- Every finished wrapped coroutine resolved its future exactly as
safe_run on its own task dictates. -/
def DoneOk (cfg : CCfg) (ps : List Phase) : Prop :=
  ∀ i : Nat, ∀ f : Fut, ps[i]? = some (Phase.done f) →
    ∃ t : Task, cfg.tasks[i]? = some t ∧ f = concurrentFut cfg.re t

lemma reach_doneOk (cfg : CCfg) {ps : List Phase} (h : Reach cfg ps) :
    DoneOk cfg ps := by
  induction h with
  | init =>
      intro i f hif
      exfalso
      unfold initPhases at hif
      rcases List.getElem?_eq_some.mp hif with ⟨hlen, hval⟩
      simp at hval
  | step _ hs ih =>
      cases hs with
      | start i hw hg =>
          intro j f hj
          by_cases hji : j = i
          · subst hji
            have hlen : j < _ := (List.getElem?_eq_some.mp hw).1
            rw [List.getElem?_set_eq_of_lt Phase.running hlen] at hj
            exact absurd hj (by simp)
          · rw [List.getElem?_set_ne (fun he => hji he.symm)] at hj
            exact ih j f hj
      | finish i t hr ht =>
          intro j f hj
          by_cases hji : j = i
          · subst hji
            have hlen : j < _ := (List.getElem?_eq_some.mp hr).1
            rw [List.getElem?_set_eq_of_lt _ hlen] at hj
            refine ⟨t, ht, ?_⟩
            have := Option.some.inj hj
            exact (Phase.done.inj this).symm
          · rw [List.getElem?_set_ne (fun he => hji he.symm)] at hj
            exact ih j f hj

/-- Progress: as long as some wrapped coroutine has not finished, the
cooperative scheduler has a step to take (either a slot is free, or the
limit is zero, or some in-flight task can finish). -/
lemma step_exists (cfg : CCfg) (ps : List Phase)
    (hlen : ps.length = cfg.tasks.length)
    (i : Nat) (p : Phase) (hp : ps[i]? = some p)
    (hnd : ∀ f : Fut, p ≠ Phase.done f) :
    ∃ ps' : List Phase, CStep cfg ps ps' := by
  have hi : i < ps.length := (List.getElem?_eq_some.mp hp).1
  cases p with
  | done f => exact absurd rfl (hnd f)
  | running =>
      have hit : i < cfg.tasks.length := hlen ▸ hi
      exact ⟨_, CStep.finish ps i cfg.tasks[i] hp (List.getElem?_eq_getElem hit)⟩
  | waiting =>
      by_cases h0 : cfg.limit = 0
      · exact ⟨_, CStep.start ps i hp (Or.inl h0)⟩
      by_cases hlt : inFlight ps < cfg.limit
      · exact ⟨_, CStep.start ps i hp (Or.inr hlt)⟩
      · have hpos : 0 < inFlight ps := by omega
        obtain ⟨j, hj⟩ := exists_running_of_inFlight_pos ps hpos
        have hjlen : j < ps.length := (List.getElem?_eq_some.mp hj).1
        have hjt : j < cfg.tasks.length := hlen ▸ hjlen
        exact ⟨_, CStep.finish ps j cfg.tasks[j] hj (List.getElem?_eq_getElem hjt)⟩

/-- In a terminal reachable interleaving every wrapped coroutine has
finished, and its future resolved as safe_run dictates. -/
lemma terminal_all_done (cfg : CCfg) {ps : List Phase}
    (hr : Reach cfg ps) (hterm : ∀ ps' : List Phase, ¬ CStep cfg ps ps') :
    ∀ i : Nat, ∀ t : Task, cfg.tasks[i]? = some t →
      ps[i]? = some (Phase.done (concurrentFut cfg.re t)) := by
  intro i t ht
  have hlen := reach_length cfg hr
  have hit : i < cfg.tasks.length := (List.getElem?_eq_some.mp ht).1
  have hip : i < ps.length := by omega
  have hp : ps[i]? = some ps[i] := List.getElem?_eq_getElem hip
  cases hd : ps[i] with
  | done f =>
      rw [hd] at hp
      obtain ⟨t', ht', hf⟩ := reach_doneOk cfg hr i f hp
      rw [ht] at ht'
      rw [Option.some.inj ht']
      rw [hf] at hp
      exact hp
  | waiting =>
      rw [hd] at hp
      obtain ⟨ps', hs⟩ := step_exists cfg ps hlen i Phase.waiting hp (by simp)
      exact absurd hs (hterm ps')
  | running =>
      rw [hd] at hp
      obtain ⟨ps', hs⟩ := step_exists cfg ps hlen i Phase.running hp (by simp)
      exact absurd hs (hterm ps')

/-- C1: for every configured limit of at least 2 and every batch of
submitted tasks, at no point of a concurrent cycle do more than limit
tasks have emitted task.start without having emitted the matching
task.finish: along every reachable interleaving the number of in-flight
tasks is bounded by the limit. -/
theorem throttle_bounds_in_flight (cfg : CCfg) (h2 : 2 ≤ cfg.limit)
    (ps : List Phase) (h : Reach cfg ps) : inFlight ps ≤ cfg.limit :=
  reach_inFlight_le cfg (by omega) h

def cfgW1 : CCfg :=
  ⟨2, false,
    [⟨0, Coro.ret PyVal.vnone⟩, ⟨1, Coro.ret PyVal.vnone⟩, ⟨2, Coro.ret PyVal.vnone⟩]⟩

def psW1 : List Phase := [Phase.running, Phase.waiting, Phase.waiting]

lemma reachW1 : Reach cfgW1 psW1 := by
  have r0 : Reach cfgW1 (initPhases cfgW1) := Reach.init
  have r1 := Reach.step r0 (CStep.start (initPhases cfgW1) 0 (by decide) (Or.inr (by decide)))
  exact r1

/-- Witness for C1 at limit 2 with three tasks, one of them in
flight. -/
theorem throttle_bounds_in_flight_witness : inFlight psW1 ≤ cfgW1.limit :=
  throttle_bounds_in_flight cfgW1 (by decide) psW1 reachW1

/-- C6: with return_exceptions true, a failing task resolves its future
to the captured error as an ordinary result value (not a re-raised
exception), and in the concurrent strategy every scheduled task still
runs to completion: in any finished (terminal) interleaving all tasks
are done and a raising task holds its error as its outcome value. -/
theorem return_exceptions_outcome_and_all_execute (cfg : CCfg)
    (hre : cfg.re = true) (ps : List Phase) (hr : Reach cfg ps)
    (hterm : ∀ ps' : List Phase, ¬ CStep cfg ps ps') :
    (∀ i : Nat, ∀ t : Task, cfg.tasks[i]? = some t →
        ps[i]? = some (Phase.done (concurrentFut cfg.re t)))
    ∧ (∀ i : Nat, ∀ t : Task, ∀ e : Nat,
        cfg.tasks[i]? = some t → t.coro = Coro.raise e →
        ps[i]? = some (Phase.done (Fut.res (PyVal.exc e)))) := by
  refine ⟨terminal_all_done cfg hr hterm, ?_⟩
  intro i t e ht hce
  have h1 := terminal_all_done cfg hr hterm i t ht
  have h2 : concurrentFut cfg.re t = Fut.res (PyVal.exc e) := by
    simp [concurrentFut, safe_run, hce, hre]
  rw [h2] at h1
  exact h1

def cfgW6 : CCfg :=
  ⟨2, true, [⟨0, Coro.raise 5⟩, ⟨1, Coro.ret (PyVal.int 1)⟩]⟩

def psW6 : List Phase :=
  [Phase.done (Fut.res (PyVal.exc 5)), Phase.done (Fut.res (PyVal.int 1))]

lemma reachW6 : Reach cfgW6 psW6 := by
  have r0 : Reach cfgW6 (initPhases cfgW6) := Reach.init
  have r1 : Reach cfgW6 [Phase.running, Phase.waiting] :=
    Reach.step r0 (CStep.start (initPhases cfgW6) 0 (by decide) (Or.inr (by decide)))
  have r2 : Reach cfgW6 [Phase.done (Fut.res (PyVal.exc 5)), Phase.waiting] :=
    Reach.step r1 (CStep.finish [Phase.running, Phase.waiting] 0 ⟨0, Coro.raise 5⟩
      (by decide) (by decide))
  have r3 : Reach cfgW6 [Phase.done (Fut.res (PyVal.exc 5)), Phase.running] :=
    Reach.step r2 (CStep.start [Phase.done (Fut.res (PyVal.exc 5)), Phase.waiting] 1
      (by decide) (Or.inr (by decide)))
  have r4 : Reach cfgW6 psW6 :=
    Reach.step r3 (CStep.finish [Phase.done (Fut.res (PyVal.exc 5)), Phase.running] 1
      ⟨1, Coro.ret (PyVal.int 1)⟩ (by decide) (by decide))
  exact r4

lemma terminalW6 : ∀ ps' : List Phase, ¬ CStep cfgW6 psW6 ps' := by
  intro ps' h
  cases h with
  | start i hw hg =>
      rcases i with _ | _ | i <;> simp [psW6] at hw
  | finish i t hr ht =>
      rcases i with _ | _ | i <;> simp [psW6] at hr

/-- Witness for C6: two tasks at limit 2 with return_exceptions true,
the first raising error 5; in the finished interleaving its outcome is
the captured error as a value. -/
theorem return_exceptions_outcome_witness :
    psW6[0]? = some (Phase.done (Fut.res (PyVal.exc 5))) :=
  (return_exceptions_outcome_and_all_execute cfgW6 rfl psW6 reachW6 terminalW6).2
    0 ⟨0, Coro.raise 5⟩ 5 rfl rfl

/-- C4: run while already running always fails with the
already-running error, and run on an empty queue always fails with the
empty-schedule error; in both cases the executor state is returned
untouched (no transition happened, no task ran) and the call never
silently succeeds. -/
theorem run_guard_errors (s : ConcurrentExecutor) (re? : Option Bool) :
    (s.running = true → s.run re? = (s, Except.error ExecError.alreadyRunning))
    ∧ (s.running = false → s.pool = [] →
        s.run re? = (s, Except.error ExecError.emptySchedule)) := by
  constructor
  · intro h
    simp [ConcurrentExecutor.run, h]
  · intro h hp
    simp [ConcurrentExecutor.run, h, hp]

def execRunningW : ConcurrentExecutor :=
  { newExecutor 1 with running := true, pool := [⟨0, Coro.ret PyVal.vnone⟩] }

/-- Witness for C4: a running executor rejects run, and an idle one
with an empty queue rejects run. -/
theorem run_guard_errors_witness :
    execRunningW.run none = (execRunningW, Except.error ExecError.alreadyRunning)
    ∧ (newExecutor 1).run none
        = (newExecutor 1, Except.error ExecError.emptySchedule) :=
  ⟨(run_guard_errors execRunningW none).1 rfl,
   (run_guard_errors (newExecutor 1) none).2 rfl rfl⟩

/-- C7: the stored limit is max(int(limit), 0), so every negative
configured limit is stored as 0; and with limit 0 the concurrent
strategy admits any waiting task without consulting the throttle (the
unthrottled _run_coro path). -/
theorem limit_coercion_and_unbounded (l : Int) :
    ((newExecutor l).limit : Int) = max l 0
    ∧ (l < 0 → (newExecutor l).limit = 0)
    ∧ (∀ cfg : CCfg, cfg.limit = 0 → ∀ ps : List Phase, ∀ i : Nat,
        ps[i]? = some Phase.waiting → CStep cfg ps (ps.set i Phase.running)) := by
  refine ⟨?_, ?_, ?_⟩
  · simp only [newExecutor]
    exact Int.toNat_of_nonneg (le_max_right l 0)
  · intro hl
    simp only [newExecutor]
    omega
  · intro cfg h0 ps i hw
    exact CStep.start ps i hw (Or.inl h0)

/-- Witness for C7: a configured limit of -3 is stored as 0, and at
limit 0 a waiting task starts regardless of how many are in flight. -/
theorem limit_coercion_witness :
    (newExecutor (-3)).limit = 0
    ∧ CStep ⟨0, false, [⟨0, Coro.ret PyVal.vnone⟩]⟩
        [Phase.running, Phase.waiting]
        ([Phase.running, Phase.waiting].set 1 Phase.running) :=
  ⟨(limit_coercion_and_unbounded (-3)).2.1 (by decide),
   (limit_coercion_and_unbounded 0).2.2 ⟨0, false, [⟨0, Coro.ret PyVal.vnone⟩]⟩ rfl
     [Phase.running, Phase.waiting] 1 rfl⟩

/-- C8: reset fails with the still-running error while a cycle is
active; otherwise it clears the task queue, clears the whole
notification registry, and recreates the throttle with its configured
capacity, leaving every other field unchanged. -/
theorem reset_spec (s : ConcurrentExecutor) :
    (s.running = true → s.reset = Except.error ExecError.stillRunning)
    ∧ (s.running = false →
        s.reset = Except.ok
          { s with pool := [], observer := ⟨[]⟩, throttler := s.limit }) := by
  constructor
  · intro h
    simp [ConcurrentExecutor.reset, h]
  · intro h
    simp [ConcurrentExecutor.reset, h, Observer.clear]

def execResetW : ConcurrentExecutor :=
  { newExecutor 3 with running := true }

def execResetExpectedW : ConcurrentExecutor :=
  { newExecutor 3 with pool := [], observer := ⟨[]⟩, throttler := (newExecutor 3).limit }

/-- Witness for C8: reset on a running executor fails; reset on an idle
executor clears pool and subscriptions and refills the throttle. -/
theorem reset_spec_witness :
    execResetW.reset = Except.error ExecError.stillRunning
    ∧ (newExecutor 3).reset = Except.ok execResetExpectedW :=
  ⟨(reset_spec execResetW).1 rfl, (reset_spec (newExecutor 3)).2 rfl⟩

/-- A pool is well indexed when every task record stores exactly its
queue position as its index; under this invariant indices are
monotonically increasing, unique, and reflect submission order. -/
def wellIndexed (pool : List Task) : Prop :=
  ∀ k : Nat, ∀ t : Task, pool[k]? = some t → t.index = k

/-- Task records built from a list of coroutines with consecutive
indices starting at k. -/
def indexedFrom (k : Nat) : List Coro → List Task
  | [] => []
  | c :: cs => ⟨k, c⟩ :: indexedFrom (k + 1) cs

lemma wellIndexed_append (pool : List Task) (c : Coro)
    (hwf : wellIndexed pool) :
    wellIndexed (pool ++ [⟨pool.length, c⟩]) := by
  intro k t hk
  by_cases hlt : k < pool.length
  · rw [List.getElem?_append, if_pos hlt] at hk
    exact hwf k t hk
  · have hge : pool.length ≤ k := Nat.le_of_not_lt hlt
    rw [List.getElem?_append_right hge] at hk
    have hb : k - pool.length < 1 := by
      have := (List.getElem?_eq_some.mp hk).1
      simpa using this
    have hk0 : k - pool.length = 0 := by omega
    rw [hk0] at hk
    simp at hk
    rw [← hk]
    show pool.length = k
    omega

lemma extend_coroObjs (s : ConcurrentExecutor) (cs : List Coro) :
    s.extend (cs.map WorkItem.coroObj)
      = Except.ok { s with pool := s.pool ++ indexedFrom s.pool.length cs } := by
  induction cs generalizing s with
  | nil => simp [ConcurrentExecutor.extend, indexedFrom]
  | cons c cs ih =>
      simp only [List.map_cons, ConcurrentExecutor.extend, ConcurrentExecutor.add]
      rw [ih]
      simp [indexedFrom, Nat.max_zero]

/-- C9: add assigns the new task record the current queue length as its
index and appends it (for both a coroutine object and a coroutine
function, which is materialized first); add rejects anything else with
the invalid-task error; well-indexedness of the pool is preserved, so
indices are increasing, unique and in submission order; and batch
submission appends task records for each item in order with consecutive
indices. -/
theorem add_assigns_next_index (s : ConcurrentExecutor) :
    (∀ c : Coro, s.add (WorkItem.coroObj c)
        = Except.ok ({ s with pool := s.pool ++ [⟨s.pool.length, c⟩] }, c))
    ∧ (∀ f : Coro, s.add (WorkItem.coroFn f)
        = Except.ok ({ s with pool := s.pool ++ [⟨s.pool.length, f⟩] }, f))
    ∧ s.add WorkItem.invalid = Except.error ExecError.invalidTask
    ∧ (wellIndexed s.pool → ∀ w : WorkItem, ∀ s' : ConcurrentExecutor, ∀ c : Coro,
        s.add w = Except.ok (s', c) → wellIndexed s'.pool)
    ∧ (∀ cs : List Coro, s.extend (cs.map WorkItem.coroObj)
        = Except.ok { s with pool := s.pool ++ indexedFrom s.pool.length cs }) := by
  refine ⟨?_, ?_, ?_, ?_, extend_coroObjs s⟩
  · intro c
    simp [ConcurrentExecutor.add, Nat.max_zero]
  · intro f
    simp [ConcurrentExecutor.add, Nat.max_zero]
  · simp [ConcurrentExecutor.add]
  · intro hwf w s' c h
    cases w with
    | invalid => simp [ConcurrentExecutor.add] at h
    | coroFn f =>
        simp [ConcurrentExecutor.add, Nat.max_zero] at h
        rw [← h.1]
        exact wellIndexed_append s.pool f hwf
    | coroObj c' =>
        simp [ConcurrentExecutor.add, Nat.max_zero] at h
        rw [← h.1]
        exact wellIndexed_append s.pool c' hwf

/-- Witness for C9: adding one coroutine object to a fresh executor
yields a well-indexed pool holding the task at index 0. -/
theorem add_assigns_next_index_witness :
    wellIndexed [Task.mk 0 (Coro.ret PyVal.vnone)] :=
  (add_assigns_next_index (newExecutor 2)).2.2.2.1
    (by intro k t hk; simp [newExecutor] at hk)
    (WorkItem.coroObj (Coro.ret PyVal.vnone))
    { newExecutor 2 with pool := [Task.mk 0 (Coro.ret PyVal.vnone)] }
    (Coro.ret PyVal.vnone) rfl

lemma run_post_return_exceptions (s : ConcurrentExecutor) (re? : Option Bool)
    (hr : s.running = false) (hp : s.pool ≠ []) :
    (s.run re?).1.return_exceptions
      = (match re? with | some b => b | none => s.return_exceptions) := by
  have h2 : ¬ (s.pool.length = 0) := by
    simpa [List.length_eq_zero] using hp
  simp only [ConcurrentExecutor.run, hr, h2]
  simp only [Bool.false_eq_true, if_false, if_neg h2]
  cases re? with
  | none =>
      by_cases hl : s.limit = 1
      · simp only [hl, if_pos]
        cases hseq : runSeqAux s.return_exceptions s.pool [] [] with
        | error ab => simp [hseq]
        | ok out =>
            obtain ⟨tr, dn, pd⟩ := out
            simp [hseq]
      · simp [hl]
  | some b =>
      by_cases hl : s.limit = 1
      · simp only [hl, if_pos]
        cases hseq : runSeqAux b s.pool [] [] with
        | error ab => simp [hseq]
        | ok out =>
            obtain ⟨tr, dn, pd⟩ := out
            simp [hseq]
      · simp [hl]

/-- C10: the return_exceptions flag configured by one run persists on
the executor: reset leaves it untouched (so the implicit reset after a
cycle does not restore the constructor default of false), a run that
supplies the argument overwrites the stored flag, and a run that omits
it reuses the stored value rather than the default. -/
theorem return_exceptions_persists (s : ConcurrentExecutor) :
    (∀ s' : ConcurrentExecutor, s.reset = Except.ok s' →
        s'.return_exceptions = s.return_exceptions)
    ∧ (∀ b : Bool, s.running = false → s.pool ≠ [] →
        (s.run (some b)).1.return_exceptions = b)
    ∧ (s.running = false → s.pool ≠ [] →
        (s.run none).1.return_exceptions = s.return_exceptions)
    ∧ (newExecutor 10).return_exceptions = false := by
  refine ⟨?_, ?_, ?_, rfl⟩
  · intro s' h
    by_cases hr : s.running
    · simp [ConcurrentExecutor.reset, hr] at h
    · simp [ConcurrentExecutor.reset, hr] at h
      rw [← h]
  · intro b hr hp
    exact run_post_return_exceptions s (some b) (by simpa using hr) hp
  · intro hr hp
    exact run_post_return_exceptions s none (by simpa using hr) hp

def execReW : ConcurrentExecutor :=
  { newExecutor 1 with pool := [⟨0, Coro.ret PyVal.vnone⟩] }

/-- Witness for C10: an executor whose run supplies return_exceptions
true carries the flag in its post-run state, and a run omitting the
argument keeps the stored flag. -/
theorem return_exceptions_persists_witness :
    (execReW.run (some true)).1.return_exceptions = true
    ∧ (execReW.run none).1.return_exceptions = execReW.return_exceptions :=
  ⟨(return_exceptions_persists execReW).2.1 true rfl (by simp [execReW]),
   (return_exceptions_persists execReW).2.2.1 rfl (by simp [execReW])⟩

/-- Pool of n task records submitted in order: position j holds index
k + j and the coroutine cf (k + j), as produced by extend on a fresh
executor. -/
def mkPool (cf : Nat → Coro) : Nat → Nat → List Task
  | _, 0 => []
  | k, n + 1 => ⟨k, cf k⟩ :: mkPool cf (k + 1) n

/-- The strictly alternating event trace of the sequential strategy:
task.start k, task.finish k, task.start (k+1), task.finish (k+1), ... -/
def altTrace (vf : Nat → PyVal) : Nat → Nat → List Event
  | _, 0 => []
  | k, n + 1 =>
      Event.taskStart k :: Event.taskFinish k (vf k) :: altTrace vf (k + 1) n

/-- The done futures produced by the sequential strategy for outcomes
vf: set_exception for Exception values, set_result otherwise. -/
def futsOf (vf : Nat → PyVal) : Nat → Nat → List Fut
  | _, 0 => []
  | k, n + 1 =>
      (if (vf k).isExc then Fut.excF (vf k).excId else Fut.res (vf k))
        :: futsOf vf (k + 1) n

lemma runSeqAux_mkPool (re : Bool) (cf : Nat → Coro) (vf : Nat → PyVal) :
    ∀ n k : Nat, ∀ tr : List Event, ∀ dn : List Fut,
    (∀ j : Nat, k ≤ j → j < k + n →
        safe_run (cf j) re = Except.ok (vf j) ∧ ((vf j).isExc = true → re = true)) →
    runSeqAux re (mkPool cf k n) tr dn
      = Except.ok (tr ++ altTrace vf k n, dn ++ futsOf vf k n, []) := by
  intro n
  induction n with
  | zero =>
      intro k tr dn h
      simp [mkPool, runSeqAux, altTrace, futsOf]
  | succ n ih =>
      intro k tr dn h
      have hk := h k (le_refl k) (by omega)
      have hrest : ∀ j : Nat, k + 1 ≤ j → j < k + 1 + n →
          safe_run (cf j) re = Except.ok (vf j) ∧ ((vf j).isExc = true → re = true) :=
        fun j h1 h2 => h j (by omega) (by omega)
      simp only [mkPool, runSeqAux]
      rw [hk.1]
      by_cases hx : (vf k).isExc
      · have hre : re = true := hk.2 hx
        subst hre
        simp only [hx, if_true]
        rw [ih (k + 1) _ _ hrest]
        simp [altTrace, futsOf, hx]
      · simp only [hx, Bool.false_eq_true, if_false]
        rw [ih (k + 1) _ _ hrest]
        simp [altTrace, futsOf, hx]

/-- Submission indices of the task.start events of a trace, in
emission order. -/
def startIndices (tr : List Event) : List Nat :=
  tr.filterMap (fun e =>
    match e with
    | Event.taskStart i => some i
    | _ => none)

lemma startIndices_altTrace (vf : Nat → PyVal) :
    ∀ n k : Nat, startIndices (altTrace vf k n) = List.range' k n := by
  intro n
  induction n with
  | zero => intro k; simp [altTrace, startIndices]
  | succ n ih =>
      intro k
      have hrec : startIndices (altTrace vf (k + 1) n) = List.range' (k + 1) n :=
        ih (k + 1)
      simp [altTrace, startIndices, List.range'_succ] at hrec ⊢
      exact hrec

lemma altTrace_finish_before_start (vf : Nat → PyVal) :
    ∀ n k i : Nat, k ≤ i → i + 1 < k + n →
    ∃ pre post : List Event,
      altTrace vf k n = pre ++ Event.taskStart (i + 1) :: post
        ∧ Event.taskFinish i (vf i) ∈ pre := by
  intro n
  induction n with
  | zero => intro k i hki hin; omega
  | succ n ih =>
      intro k i hki hin
      by_cases hik : i = k
      · subst hik
        cases n with
        | zero => omega
        | succ m =>
            refine ⟨[Event.taskStart i, Event.taskFinish i (vf i)],
              Event.taskFinish (i + 1) (vf (i + 1)) :: altTrace vf (i + 2) m, ?_, ?_⟩
            · simp [altTrace]
            · simp
      · obtain ⟨pre, post, heq, hmem⟩ := ih (k + 1) i (by omega) (by omega)
        refine ⟨Event.taskStart k :: Event.taskFinish k (vf k) :: pre, post, ?_, ?_⟩
        · simp [altTrace, heq]
        · simp [hmem]

/-- C5: under the strict sequential strategy (limit 1), task.start
events occur in strictly increasing submission-index order (the start
indices of the trace are exactly 0, 1, ..., n-1 in order) and each
task's task.finish event precedes the next task's task.start event;
holds for every batch whose tasks complete without aborting the cycle
(every outcome is a value, and an Exception outcome only occurs with
return_exceptions set). -/
theorem sequential_fifo (re : Bool) (cf : Nat → Coro) (vf : Nat → PyVal) (n : Nat)
    (h : ∀ j : Nat, j < n →
        safe_run (cf j) re = Except.ok (vf j) ∧ ((vf j).isExc = true → re = true)) :
    runSeqAux re (mkPool cf 0 n) [] []
        = Except.ok (altTrace vf 0 n, futsOf vf 0 n, [])
    ∧ startIndices (altTrace vf 0 n) = List.range n
    ∧ (∀ i : Nat, i + 1 < n → ∃ pre post : List Event,
        altTrace vf 0 n = pre ++ Event.taskStart (i + 1) :: post
          ∧ Event.taskFinish i (vf i) ∈ pre) := by
  refine ⟨?_, ?_, ?_⟩
  · have := runSeqAux_mkPool re cf vf n 0 [] [] (fun j h1 h2 => h j (by omega))
    simpa using this
  · rw [startIndices_altTrace vf n 0, List.range_eq_range' n]
  · intro i hi
    exact altTrace_finish_before_start vf n 0 i (Nat.zero_le i) (by omega)

/-- Witness for C5: three tasks returning their own index run strictly
in order under the sequential strategy. -/
theorem sequential_fifo_witness :
    runSeqAux false (mkPool (fun j => Coro.ret (PyVal.int j)) 0 3) [] []
        = Except.ok (altTrace (fun j => PyVal.int j) 0 3,
            futsOf (fun j => PyVal.int j) 0 3, [])
    ∧ startIndices (altTrace (fun j => PyVal.int j) 0 3) = List.range 3
    ∧ (∀ i : Nat, i + 1 < 3 → ∃ pre post : List Event,
        altTrace (fun j => PyVal.int j) 0 3 = pre ++ Event.taskStart (i + 1) :: post
          ∧ Event.taskFinish i (PyVal.int i) ∈ pre) :=
  sequential_fifo false (fun j => Coro.ret (PyVal.int j)) (fun j => PyVal.int j) 3
    (fun j hj => ⟨rfl, by simp [PyVal.isExc]⟩)

/-- Exhaustive case analysis of run: either a guard rejected the call
and the state is untouched, or a sequential task exception propagated
and the executor is left running, or the cycle completed and the
implicit reset ran. -/
lemma run_cases (s : ConcurrentExecutor) (re? : Option Bool)
    (s' : ConcurrentExecutor) (r : Except ExecError (List Fut × List Fut))
    (h : s.run re? = (s', r)) :
    (s' = s ∧ (r = Except.error ExecError.alreadyRunning
        ∨ r = Except.error ExecError.emptySchedule))
    ∨ (s'.running = true ∧ ∃ e : Nat, r = Except.error (ExecError.taskExc e))
    ∨ (s'.pool = [] ∧ s'.running = false ∧ s'.observer = ⟨[]⟩
        ∧ s'.throttler = s'.limit ∧ ∃ d p : List Fut, r = Except.ok (d, p)) := by
  by_cases hr : s.running
  · left
    simp [ConcurrentExecutor.run, hr] at h
    exact ⟨h.1.symm, Or.inl h.2.symm⟩
  · by_cases hp : s.pool.length = 0
    · left
      simp [ConcurrentExecutor.run, hr, hp] at h
      exact ⟨h.1.symm, Or.inr h.2.symm⟩
    · cases re? with
      | none =>
          by_cases hl : s.limit = 1
          · cases hseq : runSeqAux s.return_exceptions s.pool [] [] with
            | error ab =>
                simp [ConcurrentExecutor.run, hr, hp, hl, hseq] at h
                right; left
                rw [← h.1]
                exact ⟨rfl, ab.exc, h.2.symm⟩
            | ok out =>
                obtain ⟨tr, dn, pd⟩ := out
                simp [ConcurrentExecutor.run, hr, hp, hl, hseq] at h
                right; right
                rw [← h.1]
                exact ⟨rfl, rfl, rfl, rfl, dn, pd, h.2.symm⟩
          · simp [ConcurrentExecutor.run, hr, hp, hl] at h
            right; right
            rw [← h.1]
            exact ⟨rfl, rfl, rfl, rfl, _, [], h.2.symm⟩
      | some b =>
          by_cases hl : s.limit = 1
          · cases hseq : runSeqAux b s.pool [] [] with
            | error ab =>
                simp [ConcurrentExecutor.run, hr, hp, hl, hseq] at h
                right; left
                rw [← h.1]
                exact ⟨rfl, ab.exc, h.2.symm⟩
            | ok out =>
                obtain ⟨tr, dn, pd⟩ := out
                simp [ConcurrentExecutor.run, hr, hp, hl, hseq] at h
                right; right
                rw [← h.1]
                exact ⟨rfl, rfl, rfl, rfl, dn, pd, h.2.symm⟩
          · simp [ConcurrentExecutor.run, hr, hp, hl] at h
            right; right
            rw [← h.1]
            exact ⟨rfl, rfl, rfl, rfl, _, [], h.2.symm⟩

/-- Executor state after a completed cycle and its implicit reset. -/
def afterCycle (s : ConcurrentExecutor) : ConcurrentExecutor :=
  { s with running := false, pool := [], observer := ⟨[]⟩, throttler := s.limit }

/-- A run over the single trivially succeeding task completes normally
in either strategy. -/
lemma singleton_run_ok (s : ConcurrentExecutor) (hr : s.running = false)
    (hp : s.pool = [Task.mk 0 (Coro.ret PyVal.vnone)]) :
    s.run none = (afterCycle s, Except.ok ([Fut.res PyVal.vnone], [])) := by
  have hlen : ¬ (s.pool.length = 0) := by rw [hp]; simp
  by_cases hl : s.limit = 1
  · simp [ConcurrentExecutor.run, hr, hlen, hl, hp, runSeqAux, safe_run,
      PyVal.isExc, afterCycle, Observer.clear]
  · simp [ConcurrentExecutor.run, hr, hlen, hl, hp, concurrentFut, safe_run,
      afterCycle, Observer.clear]

/-- C2 amended: after every run invocation that returns normally the
task queue is empty, the executor is idle again, and a new submit
followed by run succeeds; but a run that raises after the cycle has
started (a sequential task exception) leaves the executor in Running
state with the undrained queue, and a subsequent run fails with the
already-running error. -/
theorem run_completion_reset (s : ConcurrentExecutor) (re? : Option Bool) :
    (∀ s' : ConcurrentExecutor, ∀ d p : List Fut,
        s.run re? = (s', Except.ok (d, p)) →
        s'.pool = [] ∧ s'.running = false
        ∧ ∃ s2 : ConcurrentExecutor,
            s'.add (WorkItem.coroObj (Coro.ret PyVal.vnone))
              = Except.ok (s2, Coro.ret PyVal.vnone)
            ∧ ∃ s3 : ConcurrentExecutor, ∃ d2 p2 : List Fut,
                s2.run none = (s3, Except.ok (d2, p2)))
    ∧ (∀ e : Nat, ∀ s' : ConcurrentExecutor,
        s.run re? = (s', Except.error (ExecError.taskExc e)) →
        s'.running = true
        ∧ s'.run none = (s', Except.error ExecError.alreadyRunning)) := by
  constructor
  · intro s' d p h
    rcases run_cases s re? s' _ h with ⟨_, h2 | h2⟩ | ⟨_, e, h2⟩
        | ⟨hpool, hrun, _, _, _⟩
    · simp at h2
    · simp at h2
    · simp at h2
    · refine ⟨hpool, hrun, ?_⟩
      have hadd : s'.add (WorkItem.coroObj (Coro.ret PyVal.vnone))
          = Except.ok ({ s' with pool := [Task.mk 0 (Coro.ret PyVal.vnone)] },
              Coro.ret PyVal.vnone) := by
        simp [ConcurrentExecutor.add, hpool]
      refine ⟨_, hadd, ?_⟩
      have hrun2 := singleton_run_ok
        { s' with pool := [Task.mk 0 (Coro.ret PyVal.vnone)] } hrun rfl
      exact ⟨_, _, _, hrun2⟩
  · intro e s' h
    rcases run_cases s re? s' _ h with ⟨_, h2 | h2⟩ | ⟨hrun, e', h2⟩
        | ⟨_, _, _, _, d, p, h2⟩
    · simp at h2
    · simp at h2
    · refine ⟨hrun, ?_⟩
      simp [ConcurrentExecutor.run, hrun]
    · simp at h2

/-- Witness for C2: a limit-1 executor with one succeeding task
completes a cycle; the post-run state has an empty queue and is
idle. -/
theorem run_completion_reset_witness :
    (afterCycle execReW).pool = [] ∧ (afterCycle execReW).running = false :=
  ⟨((run_completion_reset execReW none).1 (afterCycle execReW)
      [Fut.res PyVal.vnone] [] (singleton_run_ok execReW rfl rfl)).1,
   ((run_completion_reset execReW none).1 (afterCycle execReW)
      [Fut.res PyVal.vnone] [] (singleton_run_ok execReW rfl rfl)).2.1⟩

def coroOkA : Coro := Coro.ret (PyVal.int 10)

def coroFailB : Coro := Coro.raise 7

def coroOkC : Coro := Coro.ret (PyVal.int 30)

/-- The C3 scenario: limit 1 and three queued tasks, the second of
which raises error 7. -/
def execAbortW : ConcurrentExecutor :=
  { newExecutor 1 with pool := [⟨0, coroOkA⟩, ⟨1, coroFailB⟩, ⟨2, coroOkC⟩] }

/-- Executor state left behind when the C3 scenario aborts: still
running, with task 2 stranded in the pool. -/
def execAbortPostW : ConcurrentExecutor :=
  { execAbortW with running := true, pool := [Task.mk 2 coroOkC] }

/-- execAbortPostW after one more submission. -/
def execAbortPost2W : ConcurrentExecutor :=
  { execAbortPostW with pool := execAbortPostW.pool ++ [Task.mk 1 coroOkA] }

/-- Events emitted by the C3 scenario before the abort. -/
def abortTraceW : List Event :=
  [Event.taskStart 0, Event.taskFinish 0 (PyVal.int 10), Event.taskStart 1]

/-- C2 counterexample: in the C3 scenario the run raises after the
cycle has started, and afterwards the queue is NOT empty, the executor
is NOT idle, and a new submit followed by run does NOT succeed (run
fails with the already-running error), contradicting the claim for the
abort path it explicitly includes. -/
theorem run_abort_counterexample :
    execAbortW.run (some false)
        = (execAbortPostW, Except.error (ExecError.taskExc 7))
    ∧ execAbortPostW.running = true
    ∧ execAbortPostW.pool = [Task.mk 2 coroOkC]
    ∧ execAbortPostW.add (WorkItem.coroObj coroOkA)
        = Except.ok (execAbortPost2W, coroOkA)
    ∧ execAbortPost2W.run none
        = (execAbortPost2W, Except.error ExecError.alreadyRunning) := by
  refine ⟨rfl, rfl, rfl, rfl, rfl⟩

/-- C3 counterexample: in the scenario (limit 1, return_exceptions
false, three tasks with the second raising), the remaining queue is NOT
abandoned in pending: the abort-time internal pending list holds
exactly one unresolved future (task 1), task 2 remains in the executor
pool, and the caller of run receives only the propagated error, never a
(done, pending) pair. -/
theorem seq_abort_pending_counterexample :
    runSeqAux false [⟨0, coroOkA⟩, ⟨1, coroFailB⟩, ⟨2, coroOkC⟩] [] []
        = Except.error (SeqAbort.mk 7 abortTraceW [Fut.res (PyVal.int 10)]
            [Fut.unresolved] [Task.mk 2 coroOkC])
    ∧ (execAbortW.run (some false)).2 = Except.error (ExecError.taskExc 7)
    ∧ (execAbortW.run (some false)).1.pool = [Task.mk 2 coroOkC] := by
  refine ⟨rfl, rfl, rfl⟩

/-- C3 amended: outcome of task 0 is recorded in the internal done list
(as a resolved future) before the abort, the error from task 1
propagates to the caller of run, task 2 never starts, and the remaining
queue is abandoned in the executor pool, while the internal pending
list holds only task 1 unresolved future and is discarded with the
propagating error. -/
theorem seq_abort_scenario :
    runSeqAux false [⟨0, coroOkA⟩, ⟨1, coroFailB⟩, ⟨2, coroOkC⟩] [] []
        = Except.error (SeqAbort.mk 7 abortTraceW [Fut.res (PyVal.int 10)]
            [Fut.unresolved] [Task.mk 2 coroOkC])
    ∧ Event.taskStart 2 ∉ abortTraceW
    ∧ execAbortW.run (some false)
        = (execAbortPostW, Except.error (ExecError.taskExc 7)) := by
  refine ⟨rfl, by decide, rfl⟩

end Paco
